import Mathlib

/-!
Verification of `src/gameobjects/Text.js` (the Phaser CE `Phaser.Text` display
object) against its natural-language specification.

The development is a shallow embedding of the rendering core of that file:

* the shorthand-font parser `fontToComponents` / serializer `componentsToFont`
  (lines 892-960), embedded at the level of whitespace-separated tokens
  (`List String`); the JS regex consumes, in order, an optional style keyword,
  an optional variant keyword, an optional weight keyword, an optional size
  token, and takes the remainder verbatim as the family;
* the greedy word wrapper `runWordWrap` (lines 819-859), embedded over
  `List Char` with an additive character-measure `Char -> Rat` standing for the
  canvas `measureText` primitive;
* the per-line width computation of `updateText` (lines 371-416) and the
  height/line-spacing computation (lines 421-437);
* `renderTabLine` (lines 545-596), summarized by the horizontal positions at
  which its `fillText`/`strokeText` calls draw each tab segment;
* `updateTexture` (lines 1107-1166) and the mutating API surface
  (`setText`, `addColor`, `setTextBounds`, the guarded property setters, the
  dirty-flag / render-pass protocol) as explicit state transformers on a
  `TextState` record.

JS numbers are modelled as `Rat`; `Math.ceil` is `Rat.ceil`.  Canvas pixel
contents are not modelled (no claim depends on them); text measurement and the
font-metrics probe are oracle parameters.
-/

namespace PhaserText

/-! ## Font descriptor parser (Text.js lines 892-960)

Token-level embedding of the regex in `fontToComponents`:

  style   - normal | italic | oblique | inherit
  variant - normal | small-caps | inherit
  weight  - normal | bold | bolder | lighter | 100..900 | inherit
  size    - named CSS size keyword, `0`, or digits (with optional decimal
            point) followed by `%` or 2-5 lowercase letters
  family  - the rest, verbatim

Each leading group is optional; on a stream of whitespace-separated tokens the
greedy regex consumes the head token for a group exactly when the whole token
matches that group's pattern (word boundaries prevent partial-token matches for
tokens made of word characters).  A font string is represented by its list of
tokens. -/

def styleKeywords : List String := ["normal", "italic", "oblique", "inherit"]

def variantKeywords : List String := ["normal", "small-caps", "inherit"]

def weightKeywords : List String :=
  ["normal", "bold", "bolder", "lighter",
   "100", "200", "300", "400", "500", "600", "700", "800", "900", "inherit"]

def namedSizes : List String :=
  ["xx-small", "x-small", "small", "medium", "large", "x-large", "xx-large",
   "larger", "smaller"]

def isLowerAlpha (c : Char) : Bool := 'a' ≤ c && c ≤ 'z'

/-- The numeric-size alternative of the regex size group:
`\d*(?:[.]\d*)?(?:%|[a-z]\x7b2,5\x7d)`, required to match the whole token. -/
def numericSize (t : String) : Bool :=
  let cs := t.data.dropWhile Char.isDigit
  let cs := if cs.head? = some '.' then (cs.drop 1).dropWhile Char.isDigit else cs
  cs = ['%'] || (2 ≤ cs.length && cs.length ≤ 5 && cs.all isLowerAlpha)

/-- Whether a token is accepted by the size group of the font regex. -/
def isSizeTok (t : String) : Bool :=
  namedSizes.contains t || t == "0" || numericSize t

/-- The components record built by `fontToComponents` (Text.js lines 906-913).
`font` keeps the original token list (the JS `font` property); `fontFamily` is
kept as its token list (the JS string `m[5]` joined from these tokens). -/
structure FontComponents where
  font : List String
  fontStyle : String
  fontVariant : String
  fontWeight : String
  fontSize : String
  fontFamily : List String
  deriving DecidableEq

/-- One optional keyword group of the regex: consume the head token iff it is
one of the group's keywords. -/
def takeKw (kws : List String) : List String → Option String × List String
  | [] => (none, [])
  | t :: ts => if t ∈ kws then (some t, ts) else (none, t :: ts)

/-- The optional size group: consume the head token iff it matches the size
pattern. -/
def takeSize : List String → Option String × List String
  | [] => (none, [])
  | t :: ts => if isSizeTok t then (some t, ts) else (none, t :: ts)

/-- `Phaser.Text.prototype.fontToComponents` (Text.js lines 892-923), on the
token list of the font string.  Missing groups default to `normal` /
`medium` exactly as in lines 906-913.  (On token lists of word-character
tokens the regex always matches, so the `unparsable CSS font` fallback branch
of lines 915-922 is unreachable here.) -/
def fontToComponents (ws : List String) : FontComponents :=
  let s := takeKw styleKeywords ws
  let v := takeKw variantKeywords s.2
  let w := takeKw weightKeywords v.2
  let z := takeSize w.2
  { font := ws
    fontStyle := s.1.getD "normal"
    fontVariant := v.1.getD "normal"
    fontWeight := w.1.getD "normal"
    fontSize := z.1.getD "medium"
    fontFamily := z.2 }

/-- `if (v && v !== neutral) parts.push(v)` (Text.js lines 937-947): the part
contributed by one font component. -/
def ifPart (neutral X : String) : List String :=
  if X ≠ "" ∧ X ≠ neutral then [X] else []

/-- `Phaser.Text.prototype.componentsToFont` (Text.js lines 932-960): push each
field unless it is empty or equal to its neutral default (`normal`, `medium`),
then the family; if nothing was pushed, fall back to the stored original
`font` string. -/
def componentsToFont (c : FontComponents) : List String :=
  let parts :=
    ifPart "normal" c.fontStyle ++ (ifPart "normal" c.fontVariant ++
      (ifPart "normal" c.fontWeight ++ (ifPart "medium" c.fontSize ++ c.fontFamily)))
  if parts = [] then c.font else parts

/-- Two font strings are semantically equivalent when they parse to the same
effective style, variant, weight, size and family (spec section 8,
round-trip). -/
def semEquiv (s t : List String) : Prop :=
  (fontToComponents s).fontStyle = (fontToComponents t).fontStyle ∧
  (fontToComponents s).fontVariant = (fontToComponents t).fontVariant ∧
  (fontToComponents s).fontWeight = (fontToComponents t).fontWeight ∧
  (fontToComponents s).fontSize = (fontToComponents t).fontSize ∧
  (fontToComponents s).fontFamily = (fontToComponents t).fontFamily

instance (s t : List String) : Decidable (semEquiv s t) := by
  unfold semEquiv; infer_instance

/-- A well-formed shorthand font string, per the grammar of spec section 4.1:
an optional style keyword, an optional variant keyword, an optional weight
keyword, an optional size token, then free family text.  Family tokens are
required to be nonempty words of alphanumeric characters (for such tokens the
token-level reading of the regex is exact: word boundaries forbid
partial-token matches). -/
def WellFormed (ws : List String) : Prop :=
  ∃ (os ov ow oz : Option String) (fam : List String),
    ws = os.toList ++ ov.toList ++ ow.toList ++ oz.toList ++ fam ∧
    (∀ t ∈ os, t ∈ styleKeywords) ∧
    (∀ t ∈ ov, t ∈ variantKeywords) ∧
    (∀ t ∈ ow, t ∈ weightKeywords) ∧
    (∀ t ∈ oz, isSizeTok t = true) ∧
    (∀ t ∈ fam, t ≠ "" ∧ t.data.all Char.isAlphanum)

/-! ### Behaviour of the token-consuming groups -/

theorem takeKw_mem {kws : List String} {t : String} (ts : List String)
    (h : t ∈ kws) : takeKw kws (t :: ts) = (some t, ts) := by
  simp [takeKw, h]

theorem takeKw_head_not (kws : List String) {ws : List String}
    (h : ∀ t ∈ ws.head?, t ∉ kws) : takeKw kws ws = (none, ws) := by
  cases ws with
  | nil => rfl
  | cons t ts => simp [takeKw, h t (by simp)]

theorem takeSize_pos {t : String} (ts : List String)
    (h : isSizeTok t = true) : takeSize (t :: ts) = (some t, ts) := by
  simp [takeSize, h]

theorem takeSize_head_not {ws : List String}
    (h : ∀ t ∈ ws.head?, isSizeTok t = false) : takeSize ws = (none, ws) := by
  cases ws with
  | nil => rfl
  | cons t ts => simp [takeSize, h t (by simp)]

theorem takeKw_getD_mem (kws ws : List String) (d : String) (hd : d ∈ kws) :
    ((takeKw kws ws).1).getD d ∈ kws := by
  cases ws with
  | nil => simpa [takeKw]
  | cons t ts => by_cases h : t ∈ kws <;> simp [takeKw, h, hd]

theorem takeSize_getD_size (ws : List String) :
    isSizeTok (((takeSize ws).1).getD "medium") = true := by
  cases ws with
  | nil => decide
  | cons t ts => by_cases h : isSizeTok t = true <;> simp_all [takeSize] <;> decide

/-- Every parse result has a style drawn from the style keywords. -/
theorem fontStyle_mem (ws : List String) :
    (fontToComponents ws).fontStyle ∈ styleKeywords :=
  takeKw_getD_mem styleKeywords ws "normal" (by decide)

theorem fontVariant_mem (ws : List String) :
    (fontToComponents ws).fontVariant ∈ variantKeywords :=
  takeKw_getD_mem variantKeywords _ "normal" (by decide)

theorem fontWeight_mem (ws : List String) :
    (fontToComponents ws).fontWeight ∈ weightKeywords :=
  takeKw_getD_mem weightKeywords _ "normal" (by decide)

theorem fontSize_isSizeTok (ws : List String) :
    isSizeTok ((fontToComponents ws).fontSize) = true :=
  takeSize_getD_size _

/-! ### Disjointness of the keyword classes

The only token in several keyword classes is `inherit` (shared by style,
variant and weight); the only size token that is also a keyword is `bold`
(2-5 lowercase letters match the numeric-size pattern). -/

theorem variant_not_style {v : String} (hmem : v ∈ variantKeywords)
    (h1 : v ≠ "normal") (h2 : v ≠ "inherit") : v ∉ styleKeywords := by
  simp only [variantKeywords, List.mem_cons, List.not_mem_nil, or_false] at hmem
  rcases hmem with rfl | rfl | rfl
  · exact absurd rfl h1
  · decide
  · exact absurd rfl h2

theorem weight_not_style {w : String} (hmem : w ∈ weightKeywords)
    (h1 : w ≠ "normal") (h2 : w ≠ "inherit") : w ∉ styleKeywords := by
  simp only [weightKeywords, List.mem_cons, List.not_mem_nil, or_false] at hmem
  rcases hmem with rfl | rfl | rfl | rfl | rfl | rfl | rfl | rfl | rfl | rfl | rfl | rfl | rfl | rfl
  · exact absurd rfl h1
  all_goals first | exact absurd rfl h2 | decide

theorem weight_not_variant {w : String} (hmem : w ∈ weightKeywords)
    (h1 : w ≠ "normal") (h2 : w ≠ "inherit") : w ∉ variantKeywords := by
  simp only [weightKeywords, List.mem_cons, List.not_mem_nil, or_false] at hmem
  rcases hmem with rfl | rfl | rfl | rfl | rfl | rfl | rfl | rfl | rfl | rfl | rfl | rfl | rfl | rfl
  · exact absurd rfl h1
  all_goals first | exact absurd rfl h2 | decide

theorem size_not_style {z : String} (h : isSizeTok z = true) :
    z ∉ styleKeywords := by
  intro hz
  simp only [styleKeywords, List.mem_cons, List.not_mem_nil, or_false] at hz
  rcases hz with rfl | rfl | rfl | rfl <;> exact absurd h (by decide)

theorem size_not_variant {z : String} (h : isSizeTok z = true) :
    z ∉ variantKeywords := by
  intro hz
  simp only [variantKeywords, List.mem_cons, List.not_mem_nil, or_false] at hz
  rcases hz with rfl | rfl | rfl <;> exact absurd h (by decide)

theorem size_not_weight {z : String} (h : isSizeTok z = true)
    (hb : z ≠ "bold") : z ∉ weightKeywords := by
  intro hz
  simp only [weightKeywords, List.mem_cons, List.not_mem_nil, or_false] at hz
  rcases hz with rfl | rfl | rfl | rfl | rfl | rfl | rfl | rfl | rfl | rfl | rfl | rfl | rfl | rfl
  all_goals first | exact absurd rfl hb | exact absurd h (by decide)

theorem variant_ne_empty {v : String} (hmem : v ∈ variantKeywords) : v ≠ "" := by
  simp only [variantKeywords, List.mem_cons, List.not_mem_nil, or_false] at hmem
  rcases hmem with rfl | rfl | rfl <;> decide

theorem size_ne_empty {z : String} (h : isSizeTok z = true) : z ≠ "" := by
  rintro rfl; exact absurd h (by decide)

/-! ### Helpers about the serialized parts list -/

theorem ifPart_of_neutral {X n : String} (h : X = n) : ifPart n X = [] := by
  simp [ifPart, h]

theorem ifPart_of_ne {X n : String} (h1 : X ≠ "") (h2 : X ≠ n) :
    ifPart n X = [X] := by
  simp [ifPart, h1, h2]

theorem ifPart_eq_nil {X n : String} (h : ifPart n X = []) (h1 : X ≠ "") :
    X = n := by
  by_cases h2 : X = n
  · exact h2
  · rw [ifPart_of_ne h1 h2] at h; cases h

theorem head_not_ifPart {X n : String} (kws : List String)
    (hX : X ≠ "" → X ≠ n → X ∉ kws) :
    ∀ t ∈ (ifPart n X).head?, t ∉ kws := by
  unfold ifPart
  split
  · next h => simpa using hX h.1 h.2
  · simp

theorem head_not_append {kws : List String} {l1 l2 : List String}
    (h1 : ∀ t ∈ l1.head?, t ∉ kws) (h2 : l1 = [] → ∀ t ∈ l2.head?, t ∉ kws) :
    ∀ t ∈ (l1 ++ l2).head?, t ∉ kws := by
  cases l1 with
  | nil => simpa using h2 rfl
  | cons a l => simpa using h1 a (by simp)

theorem head_false_ifPart {X n : String} (p : String → Bool)
    (hX : X ≠ "" → X ≠ n → p X = false) :
    ∀ t ∈ (ifPart n X).head?, p t = false := by
  unfold ifPart
  split
  · next h => simpa using hX h.1 h.2
  · simp

theorem head_false_append {p : String → Bool} {l1 l2 : List String}
    (h1 : ∀ t ∈ l1.head?, p t = false)
    (h2 : l1 = [] → ∀ t ∈ l2.head?, p t = false) :
    ∀ t ∈ (l1 ++ l2).head?, p t = false := by
  cases l1 with
  | nil => simpa using h2 rfl
  | cons a l => simpa using h1 a (by simp)

/-- Re-parsing the serialized parts of a parse result recovers its five
effective fields, provided (1) the family does not begin with a token the
grammar could consume, (2a) `inherit` sits in the variant slot only when the
style is non-neutral, (2b) in the weight slot only when the variant is
non-neutral, and (2c) `bold` sits in the size slot only when the weight is
non-neutral. -/
theorem reparse_fields (S V W Z : String) (fam : List String)
    (hS : S ∈ styleKeywords) (hV : V ∈ variantKeywords)
    (hW : W ∈ weightKeywords) (hZ : isSizeTok Z = true)
    (hfam : ∀ t ∈ fam.head?,
      t ∉ styleKeywords ∧ t ∉ variantKeywords ∧ t ∉ weightKeywords ∧
        isSizeTok t = false)
    (h2a : V = "inherit" → S ≠ "normal")
    (h2b : W = "inherit" → V ≠ "normal")
    (h2c : Z = "bold" → W ≠ "normal") :
    (fontToComponents (ifPart "normal" S ++ (ifPart "normal" V ++
        (ifPart "normal" W ++ (ifPart "medium" Z ++ fam))))).fontStyle = S ∧
    (fontToComponents (ifPart "normal" S ++ (ifPart "normal" V ++
        (ifPart "normal" W ++ (ifPart "medium" Z ++ fam))))).fontVariant = V ∧
    (fontToComponents (ifPart "normal" S ++ (ifPart "normal" V ++
        (ifPart "normal" W ++ (ifPart "medium" Z ++ fam))))).fontWeight = W ∧
    (fontToComponents (ifPart "normal" S ++ (ifPart "normal" V ++
        (ifPart "normal" W ++ (ifPart "medium" Z ++ fam))))).fontSize = Z ∧
    (fontToComponents (ifPart "normal" S ++ (ifPart "normal" V ++
        (ifPart "normal" W ++ (ifPart "medium" Z ++ fam))))).fontFamily = fam := by
  -- the size group
  have step4 : ∃ o, takeSize (ifPart "medium" Z ++ fam) = (o, fam) ∧
      o.getD "medium" = Z := by
    by_cases hZ0 : Z = "medium"
    · refine ⟨none, ?_, hZ0.symm⟩
      rw [ifPart_of_neutral hZ0, List.nil_append]
      exact takeSize_head_not (fun t ht => (hfam t ht).2.2.2)
    · refine ⟨some Z, ?_, rfl⟩
      rw [ifPart_of_ne (size_ne_empty hZ) hZ0, List.singleton_append]
      exact takeSize_pos fam hZ
  -- the weight group
  have step3 : ∃ o, takeKw weightKeywords
      (ifPart "normal" W ++ (ifPart "medium" Z ++ fam)) =
        (o, ifPart "medium" Z ++ fam) ∧ o.getD "normal" = W := by
    by_cases hW0 : W = "normal"
    · refine ⟨none, ?_, hW0.symm⟩
      rw [ifPart_of_neutral hW0, List.nil_append]
      refine takeKw_head_not weightKeywords (head_not_append ?_ ?_)
      · refine head_not_ifPart weightKeywords (fun _ hZm => ?_)
        exact size_not_weight hZ (fun hZb => (h2c hZb) hW0)
      · exact fun _ t ht => (hfam t ht).2.2.1
    · refine ⟨some W, ?_, rfl⟩
      have hWne : W ≠ "" := by
        rintro rfl
        exact absurd hW (by decide)
      rw [ifPart_of_ne hWne hW0, List.cons_append]
      exact takeKw_mem _ hW
  -- the variant group
  have step2 : ∃ o, takeKw variantKeywords
      (ifPart "normal" V ++ (ifPart "normal" W ++ (ifPart "medium" Z ++ fam))) =
        (o, ifPart "normal" W ++ (ifPart "medium" Z ++ fam)) ∧
      o.getD "normal" = V := by
    by_cases hV0 : V = "normal"
    · refine ⟨none, ?_, hV0.symm⟩
      rw [ifPart_of_neutral hV0, List.nil_append]
      refine takeKw_head_not variantKeywords (head_not_append ?_ (fun _ => head_not_append ?_ ?_))
      · refine head_not_ifPart variantKeywords (fun hWne hW0 => ?_)
        exact weight_not_variant hW hW0 (fun hWi => (h2b hWi) hV0)
      · exact head_not_ifPart variantKeywords (fun _ _ => size_not_variant hZ)
      · exact fun _ t ht => (hfam t ht).2.1
    · refine ⟨some V, ?_, rfl⟩
      rw [ifPart_of_ne (variant_ne_empty hV) hV0, List.cons_append]
      exact takeKw_mem _ hV
  -- the style group
  have step1 : ∃ o, takeKw styleKeywords
      (ifPart "normal" S ++ (ifPart "normal" V ++
        (ifPart "normal" W ++ (ifPart "medium" Z ++ fam)))) =
        (o, ifPart "normal" V ++ (ifPart "normal" W ++ (ifPart "medium" Z ++ fam))) ∧
      o.getD "normal" = S := by
    by_cases hS0 : S = "normal"
    · refine ⟨none, ?_, hS0.symm⟩
      rw [ifPart_of_neutral hS0, List.nil_append]
      refine takeKw_head_not styleKeywords
        (head_not_append ?_ (fun hVnil => head_not_append ?_ (fun _ => head_not_append ?_ ?_)))
      · refine head_not_ifPart styleKeywords (fun _ hV0 => ?_)
        exact variant_not_style hV hV0 (fun hVi => (h2a hVi) hS0)
      · refine head_not_ifPart styleKeywords (fun hWne hW0 => ?_)
        have hV0 : V = "normal" := ifPart_eq_nil hVnil (variant_ne_empty hV)
        exact weight_not_style hW hW0 (fun hWi => (h2b hWi) hV0)
      · exact head_not_ifPart styleKeywords (fun _ _ => size_not_style hZ)
      · exact fun _ t ht => (hfam t ht).1
    · refine ⟨some S, ?_, rfl⟩
      have hSne : S ≠ "" := by
        rintro rfl
        exact absurd hS (by decide)
      rw [ifPart_of_ne hSne hS0, List.cons_append]
      exact takeKw_mem _ hS
  obtain ⟨o1, e1, g1⟩ := step1
  obtain ⟨o2, e2, g2⟩ := step2
  obtain ⟨o3, e3, g3⟩ := step3
  obtain ⟨o4, e4, g4⟩ := step4
  refine ⟨?_, ?_, ?_, ?_, ?_⟩ <;>
    simp [fontToComponents, e1, e2, e3, e4, g1, g2, g3, g4]

/-- C1: the round-trip claim fails as stated.  The well-formed font string
`normal italic Arial` (an explicit neutral style followed by the free-text
family `italic Arial`) parses to neutral components with family
`italic Arial`; `componentsToFont` drops the neutral style, and the resulting
string `italic Arial` re-parses with style `italic` and family `Arial` — a
different effective style and family. -/
theorem C1_counterexample :
    WellFormed ["normal", "italic", "Arial"] ∧
    ¬ semEquiv (componentsToFont (fontToComponents ["normal", "italic", "Arial"]))
        ["normal", "italic", "Arial"] := by
  constructor
  · exact ⟨some "normal", none, none, none, ["italic", "Arial"], rfl,
      by decide, by decide, by decide, by decide, by decide⟩
  · decide

/-- C1 (amended): for every well-formed shorthand font string,
`componentsToFont (fontToComponents s)` is semantically equivalent to `s`
(same effective style, variant, weight, size and family), provided the
serialization is unambiguous: the family must not begin with a token the
grammar can consume as a style, variant or weight keyword or as a size token;
`inherit` may occupy the variant slot only when the style is non-neutral and
the weight slot only when the variant is non-neutral; and `bold` (which also
matches the numeric-size pattern) may occupy the size slot only when the
weight is non-neutral.  Otherwise serialization drops the neutral leading
fields and re-parsing shifts the next token into an earlier slot (the
counterexample). -/
theorem C1_roundtrip_amended (ws : List String) (_hwf : WellFormed ws)
    (hfam : ∀ t ∈ ((fontToComponents ws).fontFamily).head?,
      t ∉ styleKeywords ∧ t ∉ variantKeywords ∧ t ∉ weightKeywords ∧
        isSizeTok t = false)
    (h2a : (fontToComponents ws).fontVariant = "inherit" →
      (fontToComponents ws).fontStyle ≠ "normal")
    (h2b : (fontToComponents ws).fontWeight = "inherit" →
      (fontToComponents ws).fontVariant ≠ "normal")
    (h2c : (fontToComponents ws).fontSize = "bold" →
      (fontToComponents ws).fontWeight ≠ "normal") :
    semEquiv (componentsToFont (fontToComponents ws)) ws := by
  by_cases hp : ifPart "normal" (fontToComponents ws).fontStyle ++
      (ifPart "normal" (fontToComponents ws).fontVariant ++
        (ifPart "normal" (fontToComponents ws).fontWeight ++
          (ifPart "medium" (fontToComponents ws).fontSize ++
            (fontToComponents ws).fontFamily))) = []
  · have hser : componentsToFont (fontToComponents ws) = (fontToComponents ws).font := by
      simp only [componentsToFont]
      rw [if_pos hp]
    have hfont : (fontToComponents ws).font = ws := rfl
    rw [hser, hfont]
    exact ⟨rfl, rfl, rfl, rfl, rfl⟩
  · have hser : componentsToFont (fontToComponents ws) =
        ifPart "normal" (fontToComponents ws).fontStyle ++
          (ifPart "normal" (fontToComponents ws).fontVariant ++
            (ifPart "normal" (fontToComponents ws).fontWeight ++
              (ifPart "medium" (fontToComponents ws).fontSize ++
                (fontToComponents ws).fontFamily))) := by
      simp only [componentsToFont]
      rw [if_neg hp]
    rw [hser]
    exact reparse_fields _ _ _ _ _ (fontStyle_mem ws) (fontVariant_mem ws)
      (fontWeight_mem ws) (fontSize_isSizeTok ws) hfam h2a h2b h2c

/-- Witness for C1 (amended) at the concrete well-formed string
`italic 20px Arial`. -/
theorem C1_roundtrip_amended_witness :
    semEquiv (componentsToFont (fontToComponents ["italic", "20px", "Arial"]))
      ["italic", "20px", "Arial"] :=
  C1_roundtrip_amended ["italic", "20px", "Arial"]
    ⟨some "italic", none, none, some "20px", ["Arial"], rfl,
      by decide, by decide, by decide, by decide, by decide⟩
    (by decide) (by decide) (by decide) (by decide)

/-! ## Word wrap (Text.js lines 819-859)

`runWordWrap` is embedded over `List Char` (JS strings are sequences of
characters; the JS single-character `split` is `splitChar` below).  The canvas
`measureText` primitive is modelled by an additive per-character measure
`m : Char -> Rat`, so that the width of a string is the sum of its character
widths; `measureText(' ')` is `m ' '`. -/

/-- JS `String.prototype.split` with a single-character separator:
`"".split(c) = [""]`, and consecutive separators yield empty pieces. -/
def splitChar (sep : Char) : List Char → List (List Char)
  | [] => [[]]
  | c :: cs =>
    if c = sep then [] :: splitChar sep cs
    else
      match splitChar sep cs with
      | [] => [[c]]
      | l :: ls => (c :: l) :: ls

/-- Joining with a single-character separator (the accumulation of
`result += piece` with `result += sep` between pieces). -/
def joinChar (sep : Char) : List (List Char) → List Char
  | [] => []
  | [l] => l
  | l :: ls => l ++ sep :: joinChar sep ls

/-- Additive string measure standing for `context.measureText(s).width`. -/
def measureL (m : Char → ℚ) (s : List Char) : ℚ := (s.map m).sum

/-- The inner `for (j...)` loop of `runWordWrap` (Text.js lines 829-849):
`first` is `j == 0`, `spaceLeft` the remaining budget of the current output
line.  Every word is emitted followed by one space; a break (`\n`) is emitted
before a word that no longer fits, unless it is the first word of the source
line. -/
def wrapWords (m : Char → ℚ) (wrapW : ℚ) (first : Bool) (spaceLeft : ℚ) :
    List (List Char) → List Char
  | [] => []
  | w :: ws =>
    let wordWidth := measureL m w
    let wordWidthWithSpace := wordWidth + m ' '
    if spaceLeft < wordWidthWithSpace then
      (if first then [] else ['\n']) ++ (w ++ (' ' :: wrapWords m wrapW false (wrapW - wordWidth) ws))
    else
      w ++ (' ' :: wrapWords m wrapW false (spaceLeft - wordWidthWithSpace) ws)

/-- `Phaser.Text.prototype.runWordWrap` (Text.js lines 819-859): split the
text on `\n`, wrap each source line greedily against `style.wordWrapWidth`,
and join the per-line results with `\n`. -/
def runWordWrap (m : Char → ℚ) (wrapW : ℚ) (text : List Char) : List Char :=
  joinChar '\n' ((splitChar '\n' text).map
    (fun line => wrapWords m wrapW true wrapW (splitChar ' ' line)))

/-! ### A line-structured model of the wrapper

`wrapModel` returns the same output organised as a list of output lines, each
a list of words; `renderLine` maps it back to the flat string.  The model and
the string-builder above are proved to agree (`runWordWrap_eq_model`). -/

/-- The words of the current output line, then the remaining input words. -/
def wrapModel (m : Char → ℚ) (wrapW : ℚ) (spaceLeft : ℚ)
    (cur : List (List Char)) : List (List Char) → List (List (List Char))
  | [] => [cur]
  | w :: ws =>
    if spaceLeft < measureL m w + m ' ' then
      cur :: wrapModel m wrapW (wrapW - measureL m w) [w] ws
    else
      wrapModel m wrapW (spaceLeft - (measureL m w + m ' ')) (cur ++ [w]) ws

/-- Output lines produced for one source line (the `j == 0` iteration never
emits a break, so the first word always opens the first output line). -/
def wrapLineModel (m : Char → ℚ) (wrapW : ℚ) : List (List Char) → List (List (List Char))
  | [] => [[]]
  | w :: ws =>
    if wrapW < measureL m w + m ' ' then
      wrapModel m wrapW (wrapW - measureL m w) [w] ws
    else
      wrapModel m wrapW (wrapW - (measureL m w + m ' ')) [w] ws

/-- Flat text of one output line: every word followed by one space. -/
def renderLine (L : List (List Char)) : List Char :=
  (L.map (fun w => w ++ [' '])).flatten

/-- All output lines of `runWordWrap`, across source lines. -/
def allModelLines (m : Char → ℚ) (wrapW : ℚ) (text : List Char) :
    List (List (List Char)) :=
  (splitChar '\n' text).flatMap (fun line => wrapLineModel m wrapW (splitChar ' ' line))

/-! ### Split / join facts -/

theorem splitChar_ne_nil (sep : Char) (l : List Char) : splitChar sep l ≠ [] := by
  cases l with
  | nil => simp [splitChar]
  | cons c cs =>
    unfold splitChar
    split
    · simp
    · split <;> simp

theorem mem_splitChar_not_sep (sep : Char) (l : List Char) :
    ∀ p ∈ splitChar sep l, sep ∉ p := by
  induction l with
  | nil =>
    intro p hp
    simp [splitChar] at hp
    subst hp
    simp
  | cons c cs ih =>
    intro p hp
    unfold splitChar at hp
    by_cases hc : c = sep
    · rw [if_pos hc] at hp
      rcases List.mem_cons.mp hp with rfl | hp
      · simp
      · exact ih p hp
    · rw [if_neg hc] at hp
      rcases hsc : splitChar sep cs with _ | ⟨l0, ls⟩
      · exact absurd hsc (splitChar_ne_nil sep cs)
      · rw [hsc] at hp
        rcases List.mem_cons.mp hp with rfl | hp
        · intro hmem
          rcases List.mem_cons.mp hmem with h | hmem
          · exact hc h.symm
          · exact ih l0 (by rw [hsc]; exact List.mem_cons_self _ _) hmem
        · exact ih p (by rw [hsc]; exact List.mem_cons_of_mem _ hp)

theorem mem_splitChar_subset (sep : Char) (l : List Char) :
    ∀ p ∈ splitChar sep l, ∀ c ∈ p, c ∈ l := by
  induction l with
  | nil =>
    intro p hp
    simp [splitChar] at hp
    subst hp
    simp
  | cons c0 cs ih =>
    intro p hp c hc
    unfold splitChar at hp
    by_cases h0 : c0 = sep
    · rw [if_pos h0] at hp
      rcases List.mem_cons.mp hp with rfl | hp
      · simp at hc
      · exact List.mem_cons_of_mem _ (ih p hp c hc)
    · rw [if_neg h0] at hp
      rcases hsc : splitChar sep cs with _ | ⟨l0, ls⟩
      · exact absurd hsc (splitChar_ne_nil sep cs)
      · rw [hsc] at hp
        rcases List.mem_cons.mp hp with rfl | hp
        · rcases List.mem_cons.mp hc with rfl | hc
          · exact List.mem_cons_self _ _
          · refine List.mem_cons_of_mem _ (ih l0 ?_ c hc)
            rw [hsc]; exact List.mem_cons_self _ _
        · refine List.mem_cons_of_mem _ (ih p ?_ c hc)
          rw [hsc]; exact List.mem_cons_of_mem _ hp

theorem joinChar_cons (sep : Char) (p : List Char) {ps : List (List Char)}
    (h : ps ≠ []) : joinChar sep (p :: ps) = p ++ sep :: joinChar sep ps := by
  cases ps with
  | nil => cases h rfl
  | cons q qs => rfl

theorem joinChar_splitChar (sep : Char) (l : List Char) :
    joinChar sep (splitChar sep l) = l := by
  induction l with
  | nil => rfl
  | cons c cs ih =>
    unfold splitChar
    by_cases hc : c = sep
    · rw [if_pos hc]
      rw [joinChar_cons sep [] (splitChar_ne_nil sep cs)]
      rw [ih, hc]
      rfl
    · rw [if_neg hc]
      rcases hsc : splitChar sep cs with _ | ⟨p, ps⟩
      · exact absurd hsc (splitChar_ne_nil sep cs)
      · rw [hsc] at ih
        cases ps with
        | nil =>
          show c :: p = c :: cs
          rw [show joinChar sep [p] = p from rfl] at ih
          rw [ih]
        | cons q qs =>
          show (c :: p) ++ sep :: joinChar sep (q :: qs) = c :: cs
          rw [joinChar_cons sep p (by simp)] at ih
          rw [List.cons_append, ih]

theorem splitChar_no_sep (sep : Char) (p : List Char) (h : sep ∉ p) :
    splitChar sep p = [p] := by
  induction p with
  | nil => rfl
  | cons c cs ih =>
    have hc : ¬ c = sep := fun e => h (by rw [e]; exact List.mem_cons_self _ _)
    have hcs : sep ∉ cs := fun e => h (List.mem_cons_of_mem _ e)
    unfold splitChar
    rw [if_neg hc, ih hcs]

theorem splitChar_prefix_no_sep (sep : Char) (p rest : List Char) (h : sep ∉ p) :
    splitChar sep (p ++ sep :: rest) = p :: splitChar sep rest := by
  induction p with
  | nil =>
    show splitChar sep (sep :: rest) = [] :: splitChar sep rest
    simp [splitChar]
  | cons c cs ih =>
    have hc : ¬ c = sep := fun e => h (by rw [e]; exact List.mem_cons_self _ _)
    have hcs : sep ∉ cs := fun e => h (List.mem_cons_of_mem _ e)
    show splitChar sep (c :: (cs ++ sep :: rest)) = (c :: cs) :: splitChar sep rest
    simp only [splitChar]
    rw [if_neg hc, ih hcs]

theorem splitChar_joinChar (sep : Char) (ps : List (List Char)) (hps : ps ≠ [])
    (h : ∀ p ∈ ps, sep ∉ p) : splitChar sep (joinChar sep ps) = ps := by
  induction ps with
  | nil => cases hps rfl
  | cons p ps ih =>
    cases ps with
    | nil =>
      show splitChar sep (joinChar sep [p]) = [p]
      rw [show joinChar sep [p] = p from rfl]
      exact splitChar_no_sep sep p (h p (List.mem_cons_self _ _))
    | cons q qs =>
      rw [joinChar_cons sep p (by simp)]
      rw [splitChar_prefix_no_sep sep p _ (h p (List.mem_cons_self _ _))]
      rw [ih (by simp) (fun r hr => h r (List.mem_cons_of_mem _ hr))]

theorem joinChar_append (sep : Char) (ps qs : List (List Char)) (hps : ps ≠ [])
    (hqs : qs ≠ []) :
    joinChar sep (ps ++ qs) = joinChar sep ps ++ sep :: joinChar sep qs := by
  induction ps with
  | nil => cases hps rfl
  | cons p ps ih =>
    cases ps with
    | nil =>
      rw [List.cons_append, List.nil_append, joinChar_cons sep p hqs]
      rfl
    | cons r rs =>
      rw [List.cons_append, joinChar_cons sep p (by simp), joinChar_cons sep p (by simp)]
      rw [ih (by simp)]
      simp

theorem joinChar_join_map (sep : Char) (LL : List (List (List Char)))
    (h : ∀ L ∈ LL, L ≠ []) :
    joinChar sep (LL.map (joinChar sep)) = joinChar sep LL.flatten := by
  induction LL with
  | nil => rfl
  | cons L LL ih =>
    cases LL with
    | nil => simp [joinChar]
    | cons M MM =>
      have hL : L ≠ [] := h L (List.mem_cons_self _ _)
      have hM : M ≠ [] := h M (List.mem_cons_of_mem _ (List.mem_cons_self _ _))
      have hflat : (M :: MM).flatten ≠ [] := by
        cases M with
        | nil => cases hM rfl
        | cons x xs => simp
      rw [List.map_cons, joinChar_cons sep _ (by simp)]
      rw [ih (fun K hK => h K (List.mem_cons_of_mem _ hK))]
      rw [show (L :: M :: MM).flatten = L ++ (M :: MM).flatten by simp]
      rw [joinChar_append sep L _ hL hflat]

/-! ### The model agrees with the string builder -/

theorem wrapModel_ne_nil (m : Char → ℚ) (wrapW : ℚ) (ws : List (List Char)) :
    ∀ sl cur, wrapModel m wrapW sl cur ws ≠ [] := by
  induction ws with
  | nil => intro sl cur; simp [wrapModel]
  | cons w ws ih =>
    intro sl cur
    unfold wrapModel
    split
    · simp
    · exact ih _ _

theorem wrapLineModel_ne_nil (m : Char → ℚ) (wrapW : ℚ) (ws : List (List Char)) :
    wrapLineModel m wrapW ws ≠ [] := by
  cases ws with
  | nil => simp [wrapLineModel]
  | cons w ws =>
    simp only [wrapLineModel]
    split
    · exact wrapModel_ne_nil m wrapW ws _ _
    · exact wrapModel_ne_nil m wrapW ws _ _

theorem wrapModel_flatten (m : Char → ℚ) (wrapW : ℚ) (ws : List (List Char)) :
    ∀ sl cur, (wrapModel m wrapW sl cur ws).flatten = cur ++ ws := by
  induction ws with
  | nil => intro sl cur; simp [wrapModel]
  | cons w ws ih =>
    intro sl cur
    unfold wrapModel
    split
    · simp [ih]
    · simp [ih]

theorem wrapLineModel_flatten (m : Char → ℚ) (wrapW : ℚ) (ws : List (List Char)) :
    (wrapLineModel m wrapW ws).flatten = ws := by
  cases ws with
  | nil => simp [wrapLineModel]
  | cons w ws =>
    simp only [wrapLineModel]
    split
    · simp [wrapModel_flatten]
    · simp [wrapModel_flatten]

theorem renderLine_append (L M : List (List Char)) :
    renderLine (L ++ M) = renderLine L ++ renderLine M := by
  simp [renderLine]

theorem wrapWords_joinModel (m : Char → ℚ) (wrapW : ℚ) (ws : List (List Char)) :
    ∀ sl cur, joinChar '\n' ((wrapModel m wrapW sl cur ws).map renderLine) =
      renderLine cur ++ wrapWords m wrapW false sl ws := by
  induction ws with
  | nil =>
    intro sl cur
    simp [wrapModel, wrapWords, joinChar]
  | cons w ws ih =>
    intro sl cur
    unfold wrapModel wrapWords
    by_cases hb : sl < measureL m w + m ' '
    · rw [if_pos hb, if_pos hb]
      rw [List.map_cons,
        joinChar_cons _ _ (by simpa using wrapModel_ne_nil m wrapW ws _ [w])]
      rw [ih]
      simp [renderLine]
    · rw [if_neg hb, if_neg hb]
      rw [ih, renderLine_append]
      simp [renderLine]

theorem wrapWords_line_eq (m : Char → ℚ) (wrapW : ℚ) (ws : List (List Char)) :
    wrapWords m wrapW true wrapW ws =
      joinChar '\n' ((wrapLineModel m wrapW ws).map renderLine) := by
  cases ws with
  | nil => simp [wrapWords, wrapLineModel, renderLine, joinChar]
  | cons w ws =>
    simp only [wrapWords, wrapLineModel]
    by_cases hb : wrapW < measureL m w + m ' '
    · rw [if_pos hb, if_pos hb, wrapWords_joinModel]
      simp [renderLine]
    · rw [if_neg hb, if_neg hb, wrapWords_joinModel]
      simp [renderLine]

theorem map_flatMap_comm {α β γ : Type} (g : β → γ) (f : α → List β) (l : List α) :
    (l.flatMap f).map g = l.flatMap (fun a => (f a).map g) := by
  induction l <;> simp_all

theorem flatten_eq_flatMap {α β : Type} (f : α → List β) (l : List α) :
    (l.map f).flatten = l.flatMap f := by
  induction l <;> simp_all

theorem runWordWrap_eq_model (m : Char → ℚ) (wrapW : ℚ) (t : List Char) :
    runWordWrap m wrapW t =
      joinChar '\n' ((allModelLines m wrapW t).map renderLine) := by
  unfold runWordWrap allModelLines
  have h1 : (splitChar '\n' t).map
      (fun line => wrapWords m wrapW true wrapW (splitChar ' ' line)) =
      ((splitChar '\n' t).map
        (fun line => (wrapLineModel m wrapW (splitChar ' ' line)).map renderLine)).map
          (joinChar '\n') := by
    simp only [List.map_map]
    exact List.map_congr_left (fun line _ => wrapWords_line_eq m wrapW _)
  rw [h1, joinChar_join_map]
  · congr 1
    rw [flatten_eq_flatMap, map_flatMap_comm]
  · intro L hL
    simp only [List.mem_map] at hL
    obtain ⟨line, _, rfl⟩ := hL
    simpa using wrapLineModel_ne_nil m wrapW (splitChar ' ' line)

/-! ### Widths of the emitted lines -/

/-- The measured width of one output line as rendered: every word contributes
its own width plus one space. -/
def lineWidth (m : Char → ℚ) (L : List (List Char)) : ℚ :=
  (L.map (fun w => measureL m w + m ' ')).sum

theorem measureL_nonneg (m : Char → ℚ) (hm : ∀ c, 0 ≤ m c) (s : List Char) :
    0 ≤ measureL m s := by
  refine List.sum_nonneg ?_
  intro x hx
  obtain ⟨c, -, rfl⟩ := List.mem_map.mp hx
  exact hm c

theorem measureL_append (m : Char → ℚ) (a b : List Char) :
    measureL m (a ++ b) = measureL m a + measureL m b := by
  simp [measureL]

theorem measureL_renderLine (m : Char → ℚ) (L : List (List Char)) :
    measureL m (renderLine L) = lineWidth m L := by
  induction L with
  | nil => rfl
  | cons w L ih =>
    have h : renderLine (w :: L) = (w ++ [' ']) ++ renderLine L := by
      simp [renderLine]
    rw [h, measureL_append, measureL_append, ih]
    simp [measureL, lineWidth]

/-- Invariant of the greedy loop: each output line either fits in
`wrapWidth + spaceWidth` (the first word of a wrapped line is charged without
its trailing space) or is a single word that alone exceeds the budget. -/
theorem wrapModel_lines_ok (m : Char → ℚ) (wrapW : ℚ) (hm : ∀ c, 0 ≤ m c)
    (ws : List (List Char)) :
    ∀ sl cur,
      (0 ≤ sl ∧ sl + lineWidth m cur ≤ wrapW + m ' ') ∨
        (∃ a, cur = [a] ∧ wrapW < measureL m a ∧ sl = wrapW - measureL m a) →
      ∀ L ∈ wrapModel m wrapW sl cur ws,
        lineWidth m L ≤ wrapW + m ' ' ∨ ∃ a, L = [a] ∧ wrapW < measureL m a := by
  induction ws with
  | nil =>
    intro sl cur hinv L hL
    simp [wrapModel] at hL
    subst hL
    rcases hinv with ⟨h0, h1⟩ | ⟨a, rfl, ha, -⟩
    · exact Or.inl (by linarith)
    · exact Or.inr ⟨a, rfl, ha⟩
  | cons w ws ih =>
    intro sl cur hinv L hL
    have hw0 : 0 ≤ measureL m w := measureL_nonneg m hm w
    have hsp : 0 ≤ m ' ' := hm ' '
    simp only [wrapModel] at hL
    by_cases hb : sl < measureL m w + m ' '
    · rw [if_pos hb] at hL
      rcases List.mem_cons.mp hL with rfl | hL
      · rcases hinv with ⟨h0, h1⟩ | ⟨a, rfl, ha, -⟩
        · exact Or.inl (by linarith)
        · exact Or.inr ⟨a, rfl, ha⟩
      · refine ih _ _ ?_ L hL
        by_cases hover : wrapW < measureL m w
        · exact Or.inr ⟨w, rfl, hover, rfl⟩
        · refine Or.inl ⟨by linarith [not_lt.mp hover], ?_⟩
          have h1 : lineWidth m [w] = measureL m w + m ' ' := by simp [lineWidth]
          rw [h1]
          linarith
    · rw [if_neg hb] at hL
      push_neg at hb
      refine ih _ _ ?_ L hL
      rcases hinv with ⟨h0, h1⟩ | ⟨a, rfl, ha, hsl⟩
      · refine Or.inl ⟨by linarith, ?_⟩
        have h2 : lineWidth m (cur ++ [w]) =
            lineWidth m cur + (measureL m w + m ' ') := by
          simp [lineWidth]
        linarith
      · exfalso
        have ha0 : 0 ≤ measureL m a := measureL_nonneg m hm a
        have : sl < 0 := by rw [hsl]; linarith
        linarith

theorem wrapLineModel_lines_ok (m : Char → ℚ) (wrapW : ℚ) (hm : ∀ c, 0 ≤ m c)
    (ws : List (List Char)) (hws : ws ≠ []) :
    ∀ L ∈ wrapLineModel m wrapW ws,
      lineWidth m L ≤ wrapW + m ' ' ∨ ∃ a, L = [a] ∧ wrapW < measureL m a := by
  cases ws with
  | nil => cases hws rfl
  | cons w ws =>
    have hw0 : 0 ≤ measureL m w := measureL_nonneg m hm w
    have hsp : 0 ≤ m ' ' := hm ' '
    simp only [wrapLineModel]
    by_cases hb : wrapW < measureL m w + m ' '
    · rw [if_pos hb]
      refine wrapModel_lines_ok m wrapW hm ws _ _ ?_
      by_cases hover : wrapW < measureL m w
      · exact Or.inr ⟨w, rfl, hover, rfl⟩
      · refine Or.inl ⟨by linarith [not_lt.mp hover], ?_⟩
        have h1 : lineWidth m [w] = measureL m w + m ' ' := by simp [lineWidth]
        rw [h1]
        linarith
    · rw [if_neg hb]
      push_neg at hb
      refine wrapModel_lines_ok m wrapW hm ws _ _ ?_
      refine Or.inl ⟨by linarith, ?_⟩
      have h1 : lineWidth m [w] = measureL m w + m ' ' := by simp [lineWidth]
      rw [h1]
      linarith

/-! ### Relating the output text to the model -/

theorem mem_allModelLines_word (m : Char → ℚ) (wrapW : ℚ) (t : List Char)
    {L : List (List Char)} {w : List Char}
    (hL : L ∈ allModelLines m wrapW t) (hw : w ∈ L) :
    ∃ line ∈ splitChar '\n' t, w ∈ splitChar ' ' line := by
  unfold allModelLines at hL
  simp only [List.mem_flatMap] at hL
  obtain ⟨line, hline, hLm⟩ := hL
  refine ⟨line, hline, ?_⟩
  rw [← wrapLineModel_flatten m wrapW (splitChar ' ' line)]
  exact List.mem_flatten.mpr ⟨L, hLm, hw⟩

theorem splitChar_runWordWrap (m : Char → ℚ) (wrapW : ℚ) (t : List Char) :
    splitChar '\n' (runWordWrap m wrapW t) =
      (allModelLines m wrapW t).map renderLine := by
  rw [runWordWrap_eq_model]
  apply splitChar_joinChar
  · have hne : allModelLines m wrapW t ≠ [] := by
      unfold allModelLines
      rcases hsc : splitChar '\n' t with _ | ⟨l, ls⟩
      · exact absurd hsc (splitChar_ne_nil _ _)
      · intro hN
        rw [List.flatMap_cons] at hN
        exact wrapLineModel_ne_nil m wrapW _ (List.append_eq_nil.mp hN).1
    intro h
    exact hne (List.map_eq_nil_iff.mp h)
  · intro p hp
    simp only [List.mem_map] at hp
    obtain ⟨L, hLmem, rfl⟩ := hp
    intro hmem
    have hex : ∃ w ∈ L, '\n' ∈ w ++ [' '] := by
      simpa [renderLine, List.mem_flatten] using hmem
    obtain ⟨w, hwL, hmm⟩ := hex
    rcases List.mem_append.mp hmm with h | h
    · obtain ⟨line, hline, hword⟩ := mem_allModelLines_word m wrapW t hLmem hwL
      have hsub := mem_splitChar_subset ' ' line w hword '\n' h
      exact mem_splitChar_not_sep '\n' t line hline hsub
    · simp at h

/-! ### The words of a text -/

/-- The words of a text: the nonempty maximal space-free, newline-free runs,
in order. -/
def wordsOf (t : List Char) : List (List Char) :=
  ((splitChar '\n' t).flatMap (splitChar ' ')).filter (fun w => !w.isEmpty)

theorem splitChar_renderLine (L : List (List Char)) (h : ∀ w ∈ L, ' ' ∉ w) :
    splitChar ' ' (renderLine L) = L ++ [[]] := by
  induction L with
  | nil => rfl
  | cons w L ih =>
    have h1 : renderLine (w :: L) = w ++ (' ' :: renderLine L) := by
      simp [renderLine]
    rw [h1, splitChar_prefix_no_sep _ _ _ (h w (List.mem_cons_self _ _))]
    rw [ih (fun v hv => h v (List.mem_cons_of_mem _ hv))]
    rfl

theorem flatMap_map_comp2 {α β γ : Type} (f : α → β) (g : β → List γ) (l : List α) :
    (l.map f).flatMap g = l.flatMap (fun a => g (f a)) := by
  induction l <;> simp_all

theorem filter_flatMap_comm {α β : Type} (p : β → Bool) (f : α → List β) (l : List α) :
    ((l.flatMap f).filter p) = l.flatMap (fun a => (f a).filter p) := by
  induction l <;> simp_all

theorem flatten_flatMap_comm {α β : Type} (f : α → List (List β)) (l : List α) :
    ((l.flatMap f).flatten) = l.flatMap (fun a => (f a).flatten) := by
  induction l <;> simp_all

theorem flatMap_id_eq_flatten {α : Type} (l : List (List α)) :
    l.flatMap (fun x => x) = l.flatten := by
  induction l <;> simp_all

/-- Word preservation: the output of the wrapper has exactly the words of the
input, in order. -/
theorem wordsOf_runWordWrap (m : Char → ℚ) (wrapW : ℚ) (t : List Char) :
    wordsOf (runWordWrap m wrapW t) = wordsOf t := by
  unfold wordsOf
  rw [splitChar_runWordWrap, flatMap_map_comp2]
  have h1 : (allModelLines m wrapW t).flatMap
      (fun L => splitChar ' ' (renderLine L)) =
      (allModelLines m wrapW t).flatMap (fun L => L ++ [[]]) := by
    rw [← flatten_eq_flatMap, ← flatten_eq_flatMap]
    congr 1
    refine List.map_congr_left (fun L hL => ?_)
    refine splitChar_renderLine L (fun w hw => ?_)
    obtain ⟨line, hline, hword⟩ := mem_allModelLines_word m wrapW t hL hw
    exact mem_splitChar_not_sep ' ' line w hword
  rw [h1, filter_flatMap_comm]
  have h2 : (allModelLines m wrapW t).flatMap
      (fun L => (L ++ [[]]).filter (fun w => !w.isEmpty)) =
      (allModelLines m wrapW t).flatMap
        (fun L => L.filter (fun w => !w.isEmpty)) := by
    rw [← flatten_eq_flatMap, ← flatten_eq_flatMap]
    congr 1
    refine List.map_congr_left (fun L _ => ?_)
    simp [List.filter_append]
  rw [h2, ← filter_flatMap_comm, flatMap_id_eq_flatten]
  congr 1
  unfold allModelLines
  rw [flatten_flatMap_comm]
  rw [← flatten_eq_flatMap, ← flatten_eq_flatMap]
  congr 1
  exact List.map_congr_left (fun line _ => wrapLineModel_flatten m wrapW _)

/-- Fixed character measure used for concrete word-wrap evaluations: every
character, the space included, is one pixel wide. -/
def unitWidth : Char → ℚ := fun _ => 1

/-- Turn a string literal into its character list. -/
def strChars (s : String) : List Char := s.data

/-- C2: the claim fails as stated.  With unit character widths and budget 4,
the text `a bb c` wraps to `a \nbb c `: the second emitted line `bb c ` has
two words `bb` and `c`, neither wider than the budget, yet it measures 5,
exceeding the budget 4 (the word opening a wrapped line is charged without
its trailing space, and every emitted word carries a trailing space). -/
theorem C2_counterexample :
    ¬ (∀ line ∈ splitChar '\n' (runWordWrap unitWidth 4 (strChars "a bb c")),
        measureL unitWidth line ≤ 4 ∨
          ∃ w, (line = w ++ [' '] ∨ line = w) ∧ ' ' ∉ w ∧
            4 < measureL unitWidth w) := by
  intro h
  have hrun : runWordWrap unitWidth 4 (strChars "a bb c") = strChars "a \nbb c " := by
    norm_num [runWordWrap, wrapWords, measureL, unitWidth, strChars, splitChar, joinChar]
  have hsplit : splitChar '\n' (runWordWrap unitWidth 4 (strChars "a bb c")) =
      [strChars "a ", strChars "bb c "] := by
    rw [hrun]; decide
  have hline := h (strChars "bb c ") (by rw [hsplit]; simp)
  rcases hline with hle | ⟨w, hw | hw, hsp, -⟩
  · refine absurd hle ?_
    norm_num [measureL, unitWidth, strChars]
  · have hwe : w = strChars "bb c" := by
      have h1 := congrArg List.dropLast hw
      rw [List.dropLast_concat] at h1
      rw [← h1]
      decide
    subst hwe
    exact hsp (by decide)
  · subst hw
    exact hsp (by decide)

/-- C2 (amended): every line emitted by `runWordWrap` measures at most the
budget plus one space width (each emitted line carries a trailing space, and
the word opening a wrapped line is charged without its space), except a line
consisting of a single word that alone exceeds the budget; and the sequence
of words of the output equals the sequence of words of the input. -/
theorem C2_wordwrap_amended (m : Char → ℚ) (wrapW : ℚ) (t : List Char)
    (hm : ∀ c, 0 ≤ m c) :
    (∀ line ∈ splitChar '\n' (runWordWrap m wrapW t),
        measureL m line ≤ wrapW + m ' ' ∨
          ∃ w, line = w ++ [' '] ∧ ' ' ∉ w ∧ wrapW < measureL m w) ∧
    wordsOf (runWordWrap m wrapW t) = wordsOf t := by
  refine ⟨?_, wordsOf_runWordWrap m wrapW t⟩
  intro line hline
  rw [splitChar_runWordWrap] at hline
  simp only [List.mem_map] at hline
  obtain ⟨L, hL, rfl⟩ := hline
  obtain ⟨srcline, hsrc, hLm⟩ :
      ∃ l ∈ splitChar '\n' t, L ∈ wrapLineModel m wrapW (splitChar ' ' l) := by
    simpa [allModelLines, List.mem_flatMap] using hL
  have hprop := wrapLineModel_lines_ok m wrapW hm _
    (splitChar_ne_nil ' ' srcline) L hLm
  rcases hprop with hfit | ⟨a, rfl, ha⟩
  · left
    rw [measureL_renderLine]
    exact hfit
  · right
    refine ⟨a, by simp [renderLine], ?_, ha⟩
    have hmem : a ∈ splitChar ' ' srcline := by
      rw [← wrapLineModel_flatten m wrapW (splitChar ' ' srcline)]
      exact List.mem_flatten.mpr ⟨[a], hLm, by simp⟩
    exact mem_splitChar_not_sep ' ' srcline a hmem

/-! ### Counting the spaces of the output (claim C6) -/

theorem count_joinChar (c sep : Char) (h : ¬ c = sep) (ps : List (List Char)) :
    (joinChar sep ps).count c = (ps.map (fun p => p.count c)).sum := by
  induction ps with
  | nil => rfl
  | cons p ps ih =>
    cases ps with
    | nil => simp [joinChar]
    | cons q qs =>
      rw [joinChar_cons sep p (by simp)]
      simp [List.count_append, List.count_cons, h, ih]

theorem count_space_renderLine (L : List (List Char)) (h : ∀ w ∈ L, ' ' ∉ w) :
    (renderLine L).count ' ' = L.length := by
  induction L with
  | nil => rfl
  | cons w L ih =>
    have h1 : renderLine (w :: L) = (w ++ [' ']) ++ renderLine L := by
      simp [renderLine]
    rw [h1, List.count_append, List.count_append]
    rw [List.count_eq_zero.mpr (h w (List.mem_cons_self _ _))]
    rw [ih (fun v hv => h v (List.mem_cons_of_mem _ hv))]
    rw [show List.count ' ' [' '] = 1 from rfl]
    simp only [List.length_cons]
    omega

theorem length_splitChar (sep : Char) (l : List Char) :
    (splitChar sep l).length = l.count sep + 1 := by
  induction l with
  | nil => rfl
  | cons c cs ih =>
    simp only [splitChar]
    by_cases hc : c = sep
    · rw [if_pos hc]
      simp [List.count_cons, hc, ih]
    · rw [if_neg hc]
      rcases hsc : splitChar sep cs with _ | ⟨l0, ls⟩
      · exact absurd hsc (splitChar_ne_nil sep cs)
      · rw [hsc] at ih
        simp only [List.length_cons] at ih
        simp [List.count_cons, hc, ih]

theorem length_flatten_sum {α : Type} (l : List (List α)) :
    l.flatten.length = (l.map (fun x => x.length)).sum := by
  induction l <;> simp_all

theorem length_flatMap_sum {α β : Type} (f : α → List β) (l : List α) :
    (l.flatMap f).length = (l.map (fun a => (f a).length)).sum := by
  induction l <;> simp_all

theorem sum_map_succ (l : List (List Char)) (f : List Char → ℕ) :
    (l.map (fun x => f x + 1)).sum = (l.map f).sum + l.length := by
  induction l with
  | nil => rfl
  | cons a l ih =>
    simp only [List.map_cons, List.sum_cons, List.length_cons, ih]
    omega

/-- C6 (amended): the wrapper does not collapse consecutive spaces — it
re-emits every split token (including the empty tokens produced by
consecutive input spaces) followed by exactly one space.  The output thus
carries one space per input word slot: its space count is the input space
count plus the number of source lines. -/
theorem C6_spaces_preserved (m : Char → ℚ) (wrapW : ℚ) (t : List Char) :
    (runWordWrap m wrapW t).count ' ' =
      t.count ' ' + (splitChar '\n' t).length := by
  rw [runWordWrap_eq_model, count_joinChar ' ' '\n' (by decide)]
  simp only [List.map_map, Function.comp_def]
  have h1 : ((allModelLines m wrapW t).map (fun L => (renderLine L).count ' ')).sum
      = ((allModelLines m wrapW t).map (fun L => L.length)).sum := by
    congr 1
    refine List.map_congr_left (fun L hL => ?_)
    refine count_space_renderLine L (fun w hw => ?_)
    obtain ⟨line, hline, hword⟩ := mem_allModelLines_word m wrapW t hL hw
    exact mem_splitChar_not_sep ' ' line w hword
  rw [h1]
  have h2 : ((allModelLines m wrapW t).map (fun L => L.length)).sum
      = ((splitChar '\n' t).map (fun line => (splitChar ' ' line).length)).sum := by
    rw [← length_flatten_sum]
    unfold allModelLines
    rw [flatten_flatMap_comm]
    have h2a : (splitChar '\n' t).flatMap
        (fun line => (wrapLineModel m wrapW (splitChar ' ' line)).flatten) =
        (splitChar '\n' t).flatMap (fun line => splitChar ' ' line) := by
      rw [← flatten_eq_flatMap, ← flatten_eq_flatMap]
      congr 1
      exact List.map_congr_left (fun line _ => wrapLineModel_flatten m wrapW _)
    rw [h2a, length_flatMap_sum]
  rw [h2]
  have h3 : ((splitChar '\n' t).map (fun line => (splitChar ' ' line).length)).sum
      = ((splitChar '\n' t).map (fun line => line.count ' ' + 1)).sum := by
    congr 1
    exact List.map_congr_left (fun line _ => length_splitChar ' ' line)
  rw [h3, sum_map_succ]
  have h4 : ((splitChar '\n' t).map (fun line => line.count ' ')).sum = t.count ' ' := by
    conv_rhs => rw [← joinChar_splitChar '\n' t]
    rw [count_joinChar ' ' '\n' (by decide)]
  rw [h4]

/-- Defines whether a string contains two consecutive spaces. -/
def hasDoubleSpace : List Char → Bool
  | a :: b :: rest => (a = ' ' && b = ' ') || hasDoubleSpace (b :: rest)
  | _ => false

/-- C6: the claim fails as stated.  With a large budget (no wrapping), the
input `a  b` (two consecutive spaces) is reconstructed as `a  b ` — the run
of two spaces survives verbatim (each empty split token re-emits a space);
it is not collapsed to a single space. -/
theorem C6_counterexample :
    runWordWrap unitWidth 100 (strChars "a  b") = strChars "a  b " ∧
    hasDoubleSpace (runWordWrap unitWidth 100 (strChars "a  b")) = true := by
  have hrun : runWordWrap unitWidth 100 (strChars "a  b") = strChars "a  b " := by
    norm_num [runWordWrap, wrapWords, measureL, unitWidth, strChars, splitChar, joinChar]
  exact ⟨hrun, by rw [hrun]; decide⟩

/-- Witness for C2 (amended) at unit widths, budget 4, text `a bb c`. -/
theorem C2_wordwrap_amended_witness :
    (∀ line ∈ splitChar '\n' (runWordWrap unitWidth 4 (strChars "a bb c")),
        measureL unitWidth line ≤ 4 + unitWidth ' ' ∨
          ∃ w, line = w ++ [' '] ∧ ' ' ∉ w ∧ 4 < measureL unitWidth w) ∧
    wordsOf (runWordWrap unitWidth 4 (strChars "a bb c")) =
      wordsOf (strChars "a bb c") :=
  C2_wordwrap_amended unitWidth 4 (strChars "a bb c") (fun _ => zero_le_one)

/-! ## Layout widths and heights (Text.js lines 349-532)

The per-line width computation of `updateText` and the height / line-spacing
adjustment, with `context.measureText` as an oracle `List Char -> Rat` and
`Math.ceil` as `Int.ceil`. -/

/-- Tab setting: JS `style.tabs` is either a number (`0` disables) or an
array of per-stop sizes (Text.js line 37). -/
inductive Tabs where
  | scalar (size : ℚ)
  | arr (sizes : List ℚ)
  deriving DecidableEq

/-- Modelled from the spec: `Phaser.Math.snapToCeil` is not part of `src/`
(only Text.js is).  Spec section 4.4 describes the scalar-tab rule as
"snapping cumulative width up to the next multiple of the tab size", so the
snap of `value` to gap `gap` is the least multiple of `gap` at or above
`value` (identity for gap 0). -/
def snapToCeil (value gap : ℚ) : ℚ :=
  if gap = 0 then value else gap * (⌈value / gap⌉ : ℤ)

/-- The `c > 0` iterations of the array-tab width loop (Text.js lines
386-398): each iteration advances `tab` by the next array entry and then
reassigns `lineWidth := tab + section` (it does not accumulate).  Reading
past the end of the array is modelled as 0 (JS would produce `NaN`);
theorems about this loop restrict to lines with at most one segment per
array entry plus one. -/
def arrayTabLoop (m : List Char → ℚ) (ts : List ℚ) (tab lineW : ℚ) :
    List (List Char) → ℚ
  | [] => lineW
  | seg :: rest =>
    let sectionW : ℚ := (⌈m seg⌉ : ℤ)
    let tab2 := tab + ts.headD 0
    arrayTabLoop m ts.tail tab2 (tab2 + sectionW) rest

/-- The scalar-tab width loop (Text.js lines 402-410): accumulate the ceiled
segment width, then pad up to the next tab stop via `snapToCeil`. -/
def scalarTabLoop (m : List Char → ℚ) (size : ℚ) (lineW : ℚ) :
    List (List Char) → ℚ
  | [] => lineW
  | seg :: rest =>
    let lineW2 := lineW + ((⌈m seg⌉ : ℤ) : ℚ)
    let diff := snapToCeil lineW2 size - lineW2
    scalarTabLoop m size (lineW2 + diff) rest

/-- Per-line pixel width of `updateText` (Text.js lines 371-412): the simple
path when `tabs === 0`, otherwise the tab-segmented path.  For array tabs the
initial `padding.x + strokeThickness` value is overwritten by the first loop
iteration (`lineWidth = tab + section`). -/
def updateLineWidth (m : List Char → ℚ) (paddingX strokeThickness : ℚ)
    (tabs : Tabs) (line : List Char) : ℚ :=
  match tabs with
  | Tabs.scalar q =>
    if q = 0 then m line + strokeThickness + paddingX
    else scalarTabLoop m q (paddingX + strokeThickness) (splitChar '\t' line)
  | Tabs.arr ts =>
    match splitChar '\t' line with
    | [] => paddingX + strokeThickness
    | s0 :: rest => arrayTabLoop m ts 0 (0 + ((⌈m s0⌉ : ℤ) : ℚ)) rest

/-- The clamp of Text.js lines 425-428: a negative line spacing whose
magnitude exceeds the line height is replaced by `-lineHeight`. -/
def clampSpacing (lineHeight lineSpacing : ℚ) : ℚ :=
  if lineSpacing < 0 ∧ lineHeight < |lineSpacing| then -lineHeight else lineSpacing

/-- Total canvas-height computation of Text.js lines 421-436 (before the
resolution scaling of line 437): `lineHeight * lineCount`, adjusted by
`lineSpacing * (lineCount - 1)` when the (clamped) spacing is nonzero. -/
def totalTextHeight (lineHeight lineSpacing : ℚ) (numLines : ℕ) : ℚ :=
  let ls := clampSpacing lineHeight lineSpacing
  let height := lineHeight * (numLines : ℚ)
  if ls ≠ 0 then height + ls * ((numLines : ℚ) - 1) else height

/-- `updateText` splits on universal newlines `\r\n | \r | \n`
(Text.js line 363). -/
def splitNewlines : List Char → List (List Char)
  | [] => [[]]
  | '\r' :: '\n' :: rest => [] :: splitNewlines rest
  | '\r' :: rest => [] :: splitNewlines rest
  | '\n' :: rest => [] :: splitNewlines rest
  | c :: rest =>
    match splitNewlines rest with
    | [] => [[c]]
    | l :: ls => (c :: l) :: ls

/-- The `c > 0` iterations of the array branch of `renderTabLine` (Text.js
lines 551-573): `tab += tabs[c-1]; snap = x + tab`. -/
def arrayTabPositions (x tab : ℚ) (ts : List ℚ) : List (List Char) → List ℚ
  | [] => []
  | _ :: rest =>
    let tab2 := tab + ts.headD 0
    (x + tab2) :: arrayTabPositions x tab2 ts.tail rest

/-- The scalar branch of `renderTabLine` (Text.js lines 574-594): draw at
`snapToCeil(x, tabs)` and advance x by the ceiled segment width. -/
def scalarTabPositions (m : List Char → ℚ) (size : ℚ) (x : ℚ) :
    List (List Char) → List ℚ
  | [] => []
  | seg :: rest =>
    let sectionW : ℚ := (⌈m seg⌉ : ℤ)
    let snap := snapToCeil x size
    snap :: scalarTabPositions m size (snap + sectionW) rest

/-- The horizontal positions at which `renderTabLine` (Text.js lines 545-596)
draws its tab segments (the `snap` argument of each `fillText`/`strokeText`
call).  The array branch accumulates `tab += tabs[c-1]` and draws at
`x + tab` (with `tab = 0` for the first segment); the scalar branch snaps the
running x to the next tab stop. -/
def renderTabLinePositions (m : List Char → ℚ) (tabs : Tabs) (line : List Char)
    (x : ℚ) : List ℚ :=
  match tabs with
  | Tabs.arr ts =>
    match splitChar '\t' line with
    | [] => []
    | _ :: rest => (x + 0) :: arrayTabPositions x 0 ts rest
  | Tabs.scalar q => scalarTabPositions m q x (splitChar '\t' line)

/-! ## The Text object state and its mutating API

State-transformer embedding of the `Phaser.Text` mutable object: the style
fields relevant to the claims, the per-character override maps, the canvas /
texture dimensions, the `pivot`, and the dirty flag.  Canvas pixel contents,
the scene-graph hooks (`updateTransform`), and the probe-based font metrics
are out of the model; `determineFontProperties` results enter as a
`FontProps` oracle.  Sparse JS arrays (`colors[position] = color`) are
association lists with newest entry first. -/

structure Rect where
  x : ℚ
  y : ℚ
  w : ℚ
  h : ℚ
  deriving DecidableEq

/-- Modelled from the spec: `Phaser.Rectangle.halfWidth` is not part of
`src/` (only Text.js is there); spec section 4.6 gives the centred offset as
`bounds.center - surfaceWidth/2`, so the half-extent is `width / 2`. -/
def rectHalfWidth (r : Rect) : ℚ := r.w / 2

/-- Modelled from the spec: `Phaser.Rectangle.halfHeight`, analogously
`height / 2` (spec section 4.6, `top`/`middle`/`bottom` analogous to the
horizontal cases). -/
def rectHalfHeight (r : Rect) : ℚ := r.h / 2

/-- Result of `determineFontProperties` (Text.js lines 1216-1326), treated as
an oracle: the pixel-probe loop reads canvas pixels and is outside the
model. -/
structure FontProps where
  ascent : ℚ
  descent : ℚ
  fontSize : ℚ
  deriving DecidableEq

structure TextState where
  text : List Char
  fill : String
  stroke : String
  align : String
  boundsAlignH : String
  boundsAlignV : String
  strokeThickness : ℚ
  wordWrap : Bool
  wordWrapWidth : ℚ
  tabs : Tabs
  lineSpacing : ℚ
  paddingX : ℚ
  paddingY : ℚ
  resolution : ℚ
  shadowOffsetX : ℚ
  shadowOffsetY : ℚ
  shadowColor : String
  shadowBlur : ℚ
  shadowStroke : Bool
  shadowFill : Bool
  colors : List (ℕ × String)
  strokeColors : List (ℕ × String)
  fontStyles : List (ℕ × String)
  fontWeights : List (ℕ × String)
  textBounds : Option Rect
  dirty : Bool
  canvasW : ℚ
  canvasH : ℚ
  baseW : ℚ
  baseH : ℚ
  cropW : ℚ
  cropH : ℚ
  frameW : ℚ
  frameH : ℚ
  texW : ℚ
  texH : ℚ
  pivotX : ℚ
  pivotY : ℚ
  renderable : Bool
  requiresReTint : Bool
  deriving DecidableEq

/-! ### Guarded property setters (Text.js lines 1356-1934)

Each `Object.defineProperty` setter assigns and marks dirty only when the new
value differs (`value !== current`); otherwise it does nothing at all. -/

/-- The `text` property setter (Text.js lines 1362-1375).  For a string
argument `value.toString() || ''` is the value itself (and `''` for `''`), so
the stored value is the argument. -/
def textSet (s : TextState) (value : List Char) : TextState :=
  if value ≠ s.text then { s with text := value, dirty := true } else s

def fillSet (s : TextState) (value : String) : TextState :=
  if value ≠ s.fill then { s with fill := value, dirty := true } else s

def alignSet (s : TextState) (value : String) : TextState :=
  if value ≠ s.align then { s with align := value, dirty := true } else s

def strokeSet (s : TextState) (value : String) : TextState :=
  if value ≠ s.stroke then { s with stroke := value, dirty := true } else s

def strokeThicknessSet (s : TextState) (value : ℚ) : TextState :=
  if value ≠ s.strokeThickness then
    { s with strokeThickness := value, dirty := true } else s

def wordWrapSet (s : TextState) (value : Bool) : TextState :=
  if value ≠ s.wordWrap then { s with wordWrap := value, dirty := true } else s

def wordWrapWidthSet (s : TextState) (value : ℚ) : TextState :=
  if value ≠ s.wordWrapWidth then
    { s with wordWrapWidth := value, dirty := true } else s

def tabsSet (s : TextState) (value : Tabs) : TextState :=
  if value ≠ s.tabs then { s with tabs := value, dirty := true } else s

def boundsAlignHSet (s : TextState) (value : String) : TextState :=
  if value ≠ s.boundsAlignH then
    { s with boundsAlignH := value, dirty := true } else s

def boundsAlignVSet (s : TextState) (value : String) : TextState :=
  if value ≠ s.boundsAlignV then
    { s with boundsAlignV := value, dirty := true } else s

def resolutionSet (s : TextState) (value : ℚ) : TextState :=
  if value ≠ s.resolution then { s with resolution := value, dirty := true } else s

/-- `lineSpacing` setter (Text.js lines 1787-1800); `parseFloat` of a number
is the number itself. -/
def lineSpacingSet (s : TextState) (value : ℚ) : TextState :=
  if value ≠ s.lineSpacing then { s with lineSpacing := value, dirty := true } else s

/-! ### Unguarded mutators -/

/-- `setText` (Text.js lines 971-978): assigns through the `text` property
setter, then sets `dirty` unconditionally. -/
def setText (s : TextState) (value : List Char) : TextState :=
  { textSet s value with dirty := true }

/-- `setText` as called: its JSDoc declares the `text` parameter optional
(`[text]`), modelled as `Option`.  With the argument omitted (`undefined`),
line 973 evaluates `text.toString()` on `undefined` and throws a
`TypeError`. -/
def setTextJS (s : TextState) (value : Option (List Char)) :
    Except String TextState :=
  match value with
  | none => Except.error "TypeError: cannot call toString of undefined"
  | some v => Except.ok (setText s v)

/-- `addColor` (Text.js lines 729-736). -/
def addColor (s : TextState) (color : String) (position : ℕ) : TextState :=
  { s with colors := (position, color) :: s.colors, dirty := true }

/-- `addStrokeColor` (Text.js lines 755-762). -/
def addStrokeColor (s : TextState) (color : String) (position : ℕ) : TextState :=
  { s with strokeColors := (position, color) :: s.strokeColors, dirty := true }

/-- `addFontStyle` (Text.js lines 779-786). -/
def addFontStyle (s : TextState) (style : String) (position : ℕ) : TextState :=
  { s with fontStyles := (position, style) :: s.fontStyles, dirty := true }

/-- `addFontWeight` (Text.js lines 803-810). -/
def addFontWeight (s : TextState) (weight : String) (position : ℕ) : TextState :=
  { s with fontWeights := (position, weight) :: s.fontWeights, dirty := true }

/-- `clearColors` (Text.js lines 688-696). -/
def clearColors (s : TextState) : TextState :=
  { s with colors := [], strokeColors := [], dirty := true }

/-- `clearFontValues` (Text.js lines 704-712). -/
def clearFontValues (s : TextState) : TextState :=
  { s with fontStyles := [], fontWeights := [], dirty := true }

/-- `setShadow` (Text.js lines 244-263). -/
def setShadow (s : TextState) (x y : ℚ) (color : String) (blur : ℚ)
    (shadowStroke shadowFill : Bool) : TextState :=
  { s with shadowOffsetX := x, shadowOffsetY := y, shadowColor := color,
           shadowBlur := blur, shadowStroke := shadowStroke,
           shadowFill := shadowFill, dirty := true }

/-! ### Texture synchronisation and text bounds -/

/-- `updateTexture` (Text.js lines 1107-1166): propagate the canvas size to
the base/crop/frame/texture dimensions, align within `textBounds` (if set) by
negating the computed offset into the pivot, mark renderability and the
re-tint flag.  The host `baseTexture.dirty()` call is external. -/
def updateTexture (s : TextState) : TextState :=
  let w := s.canvasW
  let h := s.canvasH
  let s1 := { s with baseW := w, baseH := h, cropW := w, cropH := h,
                     frameW := w, frameH := h, texW := w, texH := h }
  let s2 :=
    match s1.textBounds with
    | none => s1
    | some tb =>
      let x := tb.x + (if s1.boundsAlignH = "right" then tb.w - w
        else if s1.boundsAlignH = "center" then rectHalfWidth tb - w / 2 else 0)
      let y := tb.y + (if s1.boundsAlignV = "bottom" then tb.h - h
        else if s1.boundsAlignV = "middle" then rectHalfHeight tb - h / 2 else 0)
      { s1 with pivotX := -x, pivotY := -y }
  { s2 with renderable := w != 0 && h != 0, requiresReTint := true }

/-- `setTextBounds` (Text.js lines 1072-1099): store (or reset) the bounds
rectangle, clamp `wordWrapWidth` to the bounds width, and re-run
`updateTexture`.  It does not touch the dirty flag. -/
def setTextBounds (s : TextState) (args : Option (ℚ × ℚ × ℚ × ℚ)) : TextState :=
  match args with
  | none => updateTexture { s with textBounds := none }
  | some (x, y, w, h) =>
    let s1 := { s with textBounds := some ⟨x, y, w, h⟩ }
    let s2 := if s1.wordWrapWidth > w then { s1 with wordWrapWidth := w } else s1
    updateTexture s2

/-! ### The layout pass -/

/-- `updateText` (Text.js lines 349-532): word-wrap if enabled, split into
lines, compute per-line widths (ceiled) and the maximal width, size the
canvas (width and height scaled by the resolution), then `updateTexture`.
The drawing passes write canvas pixels only and are outside the model;
`mC` is the per-character measure oracle and `fp` the font-metrics oracle. -/
def updateTextS (mC : Char → ℚ) (fp : FontProps) (s : TextState) : TextState :=
  let outputText := if s.wordWrap then runWordWrap mC s.wordWrapWidth s.text else s.text
  let lines := splitNewlines outputText
  let lineWidths := lines.map
    (fun l => (⌈updateLineWidth (measureL mC) s.paddingX s.strokeThickness s.tabs l⌉ : ℤ))
  let maxLineWidth : ℚ := lineWidths.foldl (fun a b => max a (b : ℚ)) 0
  let lineHeight := fp.fontSize + s.strokeThickness + s.paddingY
  let height := totalTextHeight lineHeight s.lineSpacing lines.length
  updateTexture { s with canvasW := maxLineWidth * s.resolution,
                         canvasH := height * s.resolution }

/-- The render-trigger protocol shared by `_renderWebGL`, `_renderCanvas`,
`getBounds` and the `width`/`height` getters (Text.js lines 1175-1185,
1194-1206, 1336-1345, 1940-1983): if dirty, run `updateText` and clear the
flag; otherwise do nothing. -/
def renderPass (mC : Char → ℚ) (fp : FontProps) (s : TextState) : TextState :=
  if s.dirty then { updateTextS mC fp s with dirty := false } else s

/-- A freshly rendered (clean) Text object with the constructor defaults of
`setStyle` (Text.js lines 287-341). -/
def baseState : TextState :=
  { text := [], fill := "black", stroke := "black", align := "left",
    boundsAlignH := "left", boundsAlignV := "top", strokeThickness := 0,
    wordWrap := false, wordWrapWidth := 100, tabs := Tabs.scalar 0,
    lineSpacing := 0, paddingX := 0, paddingY := 0, resolution := 1,
    shadowOffsetX := 0, shadowOffsetY := 0, shadowColor := "rgba(0,0,0,0)",
    shadowBlur := 0, shadowStroke := true, shadowFill := true,
    colors := [], strokeColors := [], fontStyles := [], fontWeights := [],
    textBounds := none, dirty := false, canvasW := 0, canvasH := 0,
    baseW := 0, baseH := 0, cropW := 0, cropH := 0, frameW := 0, frameH := 0,
    texW := 0, texH := 0, pivotX := 0, pivotY := 0, renderable := true,
    requiresReTint := false }

theorem updateTexture_dirty (s : TextState) :
    (updateTexture s).dirty = s.dirty := by
  cases htb : s.textBounds <;> simp [updateTexture, htb]

theorem setTextBounds_dirty (s : TextState) (args : Option (ℚ × ℚ × ℚ × ℚ)) :
    (setTextBounds s args).dirty = s.dirty := by
  cases args with
  | none => simp [setTextBounds, updateTexture_dirty]
  | some a =>
    obtain ⟨x, y, w, h⟩ := a
    simp only [setTextBounds]
    rw [updateTexture_dirty]
    split <;> rfl

/-- C3: the claim fails as stated.  `setTextBounds` mutates the text bounds
(and possibly `wordWrapWidth`) but never sets the dirty flag — it calls
`updateTexture` directly instead: on a clean object, setting bounds leaves
`dirty` false. -/
theorem C3_counterexample :
    baseState.dirty = false ∧
    (setTextBounds baseState (some (0, 0, 800, 600))).dirty = false := by
  refine ⟨rfl, ?_⟩
  rw [setTextBounds_dirty]
  rfl

/-- C3 (amended): the dirty flag is true after every mutation of the text
content (`setText`), the style-run maps (`addColor`, `addStrokeColor`,
`addFontStyle`, `addFontWeight`, and their clears), the shadow style
(`setShadow`), and after every value-changing assignment through the guarded
style/resolution setters (an assignment of the current value leaves the flag
unchanged); `setTextBounds` is the exception — it preserves the dirty flag
and immediately re-runs `updateTexture` instead; and the flag is cleared
exactly by the render pass, which runs the layout (`updateText`) first. -/
theorem C3_dirty_amended (mC : Char → ℚ) (fp : FontProps) (s : TextState)
    (t tv : List Char) (color sc fsty fwt : String) (pos : ℕ)
    (fv av stv bhv bvv shc : String) (qv x y blur : ℚ) (bv bs bf : Bool)
    (tb : Tabs) (args : Option (ℚ × ℚ × ℚ × ℚ)) :
    (setText s t).dirty = true ∧
    (addColor s color pos).dirty = true ∧
    (addStrokeColor s sc pos).dirty = true ∧
    (addFontStyle s fsty pos).dirty = true ∧
    (addFontWeight s fwt pos).dirty = true ∧
    (clearColors s).dirty = true ∧
    (clearFontValues s).dirty = true ∧
    (setShadow s x y shc blur bs bf).dirty = true ∧
    (textSet s tv).dirty = (if tv = s.text then s.dirty else true) ∧
    (fillSet s fv).dirty = (if fv = s.fill then s.dirty else true) ∧
    (alignSet s av).dirty = (if av = s.align then s.dirty else true) ∧
    (strokeSet s stv).dirty = (if stv = s.stroke then s.dirty else true) ∧
    (strokeThicknessSet s qv).dirty =
      (if qv = s.strokeThickness then s.dirty else true) ∧
    (wordWrapSet s bv).dirty = (if bv = s.wordWrap then s.dirty else true) ∧
    (wordWrapWidthSet s qv).dirty =
      (if qv = s.wordWrapWidth then s.dirty else true) ∧
    (tabsSet s tb).dirty = (if tb = s.tabs then s.dirty else true) ∧
    (boundsAlignHSet s bhv).dirty =
      (if bhv = s.boundsAlignH then s.dirty else true) ∧
    (boundsAlignVSet s bvv).dirty =
      (if bvv = s.boundsAlignV then s.dirty else true) ∧
    (resolutionSet s qv).dirty = (if qv = s.resolution then s.dirty else true) ∧
    (lineSpacingSet s qv).dirty = (if qv = s.lineSpacing then s.dirty else true) ∧
    (setTextBounds s args).dirty = s.dirty ∧
    (renderPass mC fp s).dirty = false ∧
    renderPass mC fp s =
      (if s.dirty then { updateTextS mC fp s with dirty := false } else s) := by
  refine ⟨rfl, rfl, rfl, rfl, rfl, rfl, rfl, rfl, ?_, ?_, ?_, ?_, ?_, ?_, ?_,
    ?_, ?_, ?_, ?_, ?_, ?_, ?_, rfl⟩
  · by_cases h : tv = s.text <;> simp [textSet, h]
  · by_cases h : fv = s.fill <;> simp [fillSet, h]
  · by_cases h : av = s.align <;> simp [alignSet, h]
  · by_cases h : stv = s.stroke <;> simp [strokeSet, h]
  · by_cases h : qv = s.strokeThickness <;> simp [strokeThicknessSet, h]
  · by_cases h : bv = s.wordWrap <;> simp [wordWrapSet, h]
  · by_cases h : qv = s.wordWrapWidth <;> simp [wordWrapWidthSet, h]
  · by_cases h : tb = s.tabs <;> simp [tabsSet, h]
  · by_cases h : bhv = s.boundsAlignH <;> simp [boundsAlignHSet, h]
  · by_cases h : bvv = s.boundsAlignV <;> simp [boundsAlignVSet, h]
  · by_cases h : qv = s.resolution <;> simp [resolutionSet, h]
  · by_cases h : qv = s.lineSpacing <;> simp [lineSpacingSet, h]
  · exact setTextBounds_dirty s args
  · by_cases h : s.dirty <;> simp [renderPass, h]

/-- C4: code bug.  With array tabs `[30, 80]` and the line `a\tb\tc` starting
at x = 0, `renderTabLine` draws the three segments at offsets 0, 30 and 110:
the loop accumulates `tab += tabs[c-1]`, treating the entries as relative
deltas, whereas the claim (and the `tabs` JSDoc, Text.js line 1620: tabs
`[100,200]` set "the first tab at 100px and the second at 200px") requires
segment 3 to start at the absolute offset 80. -/
theorem C4_code_bug_eval :
    renderTabLinePositions (fun seg => ((seg.length : ℕ) : ℚ)) (Tabs.arr [30, 80])
        (strChars "a\tb\tc") 0 = [0, 30, 110] ∧
    ([0, 30, 110] : List ℚ) ≠ [0, 30, 80] := by
  constructor
  · have hsplit : splitChar '\t' (strChars "a\tb\tc") = [['a'], ['b'], ['c']] := by
      decide
    simp only [renderTabLinePositions, hsplit]
    norm_num [arrayTabPositions]
  · decide

/-- Sequential consumption of the tab array: after the `c > 0` iterations
over `rest ++ [slast]`, the final `lineWidth` is the accumulated tab offset
plus the last segment's ceiled width alone. -/
theorem arrayTabLoop_last (m : List Char → ℚ) (rest : List (List Char))
    (slast : List Char) :
    ∀ (ts : List ℚ) (tab lw0 : ℚ),
      arrayTabLoop m ts tab lw0 (rest ++ [slast]) =
        tab + (ts.take (rest.length + 1)).sum + ((⌈m slast⌉ : ℤ) : ℚ) := by
  induction rest with
  | nil =>
    intro ts tab lw0
    show arrayTabLoop m ts tab lw0 [slast] = _
    cases ts <;> simp [arrayTabLoop]
  | cons r rs ih =>
    intro ts tab lw0
    show arrayTabLoop m ts tab lw0 (r :: (rs ++ [slast])) = _
    simp only [arrayTabLoop]
    rw [ih]
    cases ts with
    | nil => simp
    | cons a as =>
      simp [List.take_succ_cons]
      ring

/-- C5: in the array-tab branch of `updateText`, `lineWidth` is reassigned
(not accumulated) on every segment, so the final per-line width is the last
segment's cumulative tab offset plus that segment's own ceiled width: the
widths of earlier segments and the initial `padding.x + strokeThickness` term
do not appear in the result.  (Restricted to lines with at most one segment
per tab entry plus one, the domain on which the JS array lookup is
defined.) -/
theorem C5_lineWidth_reassignment (m : List Char → ℚ)
    (paddingX strokeThickness : ℚ) (ts : List ℚ) (line : List Char)
    (_h : (splitChar '\t' line).length ≤ ts.length + 1) :
    updateLineWidth m paddingX strokeThickness (Tabs.arr ts) line =
      (ts.take ((splitChar '\t' line).length - 1)).sum +
        ((⌈m ((splitChar '\t' line).getLastD [])⌉ : ℤ) : ℚ) := by
  rcases hsc : splitChar '\t' line with _ | ⟨s0, rest⟩
  · exact absurd hsc (splitChar_ne_nil _ _)
  · simp only [updateLineWidth, hsc]
    rcases List.eq_nil_or_concat rest with rfl | ⟨rr, slast, rfl⟩
    · simp [arrayTabLoop]
    · simp only [List.concat_eq_append]
      rw [arrayTabLoop_last]
      rw [show s0 :: (rr ++ [slast]) = (s0 :: rr) ++ [slast] from rfl]
      rw [List.getLastD_concat]
      simp

/-- Witness for C5 on the line `a\tb\tc` with tabs `[30, 80]` and a
length-based measure. -/
theorem C5_lineWidth_reassignment_witness :
    updateLineWidth (fun seg => ((seg.length : ℕ) : ℚ)) 5 2 (Tabs.arr [30, 80])
        (strChars "a\tb\tc") =
      (([30, 80] : List ℚ).take ((splitChar '\t' (strChars "a\tb\tc")).length - 1)).sum +
        ((⌈(fun seg => ((seg.length : ℕ) : ℚ))
            ((splitChar '\t' (strChars "a\tb\tc")).getLastD [])⌉ : ℤ) : ℚ) :=
  C5_lineWidth_reassignment (fun seg => ((seg.length : ℕ) : ℚ)) 5 2 [30, 80]
    (strChars "a\tb\tc") (by decide)

/-- C7: for a negative line spacing whose magnitude exceeds the line height,
the layout clamps the effective spacing to `-lineHeight` before computing the
total height; in particular with line height 24, spacing -1000 yields exactly
the height of spacing -24, for any number of lines. -/
theorem C7_negative_spacing_clamp :
    (∀ (lineHeight lineSpacing : ℚ) (n : ℕ), lineSpacing < 0 →
      lineHeight < |lineSpacing| →
      totalTextHeight lineHeight lineSpacing n = totalTextHeight lineHeight (-lineHeight) n) ∧
    (∀ n : ℕ, totalTextHeight 24 (-1000) n = totalTextHeight 24 (-24) n) := by
  have hmain : ∀ (lh ls : ℚ) (n : ℕ), ls < 0 → lh < |ls| →
      totalTextHeight lh ls n = totalTextHeight lh (-lh) n := by
    intro lh ls n hneg hmag
    have h1 : clampSpacing lh ls = -lh := by
      unfold clampSpacing
      rw [if_pos ⟨hneg, hmag⟩]
    have h2 : clampSpacing lh (-lh) = -lh := by
      unfold clampSpacing
      split <;> rfl
    simp only [totalTextHeight, h1, h2]
  refine ⟨hmain, fun n => ?_⟩
  have h := hmain 24 (-1000) n (by norm_num) (by norm_num)
  simpa using h

/-- Witness for C7 at 3 lines. -/
theorem C7_negative_spacing_clamp_witness :
    totalTextHeight 24 (-1000) 3 = totalTextHeight 24 (-24) 3 :=
  C7_negative_spacing_clamp.2 3

/-- A Text object whose rendered surface is 100 x 40, with bounds
`(0, 0, 800, 600)`, `boundsAlignH = center`, `boundsAlignV = bottom`. -/
def boundsExampleState : TextState :=
  { baseState with
    canvasW := 100, canvasH := 40,
    textBounds := some ⟨0, 0, 800, 600⟩,
    boundsAlignH := "center", boundsAlignV := "bottom" }

/-- C8: with bounds `(0,0,800,600)`, horizontal centring and bottom vertical
alignment of a 100 x 40 surface, `updateTexture` computes the render offset
`(350, 560)` and exposes it as `pivot = (-350, -560)`. -/
theorem C8_bounds_alignment :
    (updateTexture boundsExampleState).pivotX = -350 ∧
    (updateTexture boundsExampleState).pivotY = -560 := by
  constructor
  · norm_num [updateTexture, boundsExampleState, baseState, rectHalfWidth,
      rectHalfHeight]
    decide
  · norm_num [updateTexture, boundsExampleState, baseState, rectHalfWidth,
      rectHalfHeight]

/-- C9: code bug.  `setText`'s JSDoc declares its `text` parameter optional,
but calling it with the argument omitted evaluates `undefined.toString()` and
throws a `TypeError` instead of being total as the spec requires. -/
theorem C9_setText_undefined_throws :
    setTextJS baseState none =
      Except.error "TypeError: cannot call toString of undefined" := rfl

/-- C10: assigning the current value through any comparing setter changes
nothing at all — the `value !== current` guard fails and the resulting state
is the very same object (same stored value, same dirty flag, every other
field untouched). -/
theorem C10_equal_value_setters_noop (s : TextState) :
    fillSet s s.fill = s ∧ alignSet s s.align = s ∧ strokeSet s s.stroke = s ∧
    strokeThicknessSet s s.strokeThickness = s ∧ wordWrapSet s s.wordWrap = s ∧
    textSet s s.text = s ∧ wordWrapWidthSet s s.wordWrapWidth = s ∧
    tabsSet s s.tabs = s ∧ boundsAlignHSet s s.boundsAlignH = s ∧
    boundsAlignVSet s s.boundsAlignV = s ∧ resolutionSet s s.resolution = s ∧
    lineSpacingSet s s.lineSpacing = s :=
  ⟨by simp [fillSet], by simp [alignSet], by simp [strokeSet],
    by simp [strokeThicknessSet], by simp [wordWrapSet], by simp [textSet],
    by simp [wordWrapWidthSet], by simp [tabsSet], by simp [boundsAlignHSet],
    by simp [boundsAlignVSet], by simp [resolutionSet], by simp [lineSpacingSet]⟩

end PhaserText
